import Mathlib

namespace Glint

/-!
Verification of the glint RSS-digest pipeline core.

Each definition is a shallow embedding of a function of the TypeScript
source: `parallelLimit` (src/performance.ts), the `ArticleCache`
(src/index.ts), `fetchFeedItems`/`fetchAllFeeds` (src/unnamed/part_000),
`fetchArticleText` (src/config.ts), the grouping and summarization code of
`main` (src/unnamed/part_001) and
`AIProcessor.generateSourceSummariesFromRaw` (src/ai.ts).  External
capabilities (RSS parsing, HTTP fetch, HTML region extraction, the text
generation service, the URL hash) are parameters of the embeddings.
-/

/-! ### Bounded concurrency executor (src/performance.ts, `parallelLimit`)

The JS loop starts item `i`, adds its promise to the `executing` set, and,
when `executing.size >= limit`, awaits `Promise.race(executing)`; each
promise removes itself from the set on settlement and writes its result to
`results[i]`.  We embed this as a deterministic interpreter driven by an
adversarial `sched : List Nat`: each scheduler entry chooses which in-flight
index settles at an await point (the choice is read modulo the number of
in-flight operations, so every schedule is meaningful).  The interpreter
records the largest number of simultaneously in-flight operations in
`maxInflight`. -/

structure ExecState (β : Type u) where
  results : List (Option β)
  inflight : List Nat
  maxInflight : Nat

/-- Settle one in-flight operation, chosen by `c`: write `f items[j]` into
slot `j` of `results` and remove `j` from the in-flight list.  Models a
`Promise.race` resolution together with the `.then`/`.finally` handlers of
`parallelLimit`. -/
def completeOne (f : α → β) (items : List α) (st : ExecState β) (c : Nat) :
    ExecState β :=
  if st.inflight.length = 0 then st
  else
    { results :=
        match items[st.inflight.getD (c % st.inflight.length) 0]? with
        | some a =>
            st.results.set (st.inflight.getD (c % st.inflight.length) 0)
              (some (f a))
        | none => st.results
      inflight := st.inflight.eraseIdx (c % st.inflight.length)
      maxInflight := st.maxInflight }

/-- After the `for` loop, `parallelLimit` awaits `Promise.all(executing)`:
every still-in-flight operation settles. -/
def drainAux (f : α → β) (items : List α) :
    Nat → ExecState β → List Nat → ExecState β
  | 0, st, _ => st
  | fuel + 1, st, sched =>
      drainAux f items fuel (completeOne f items st (sched.headD 0)) sched.tail

def drain (f : α → β) (items : List α) (st : ExecState β) (sched : List Nat) :
    ExecState β :=
  drainAux f items st.inflight.length st sched

/-- The `for` loop of `parallelLimit` over the remaining input indices:
start index `i` (adding it to the in-flight set), and if the in-flight
count has reached `limit`, await one settlement before continuing. -/
def runAux (f : α → β) (items : List α) (limit : Nat) :
    List Nat → ExecState β → List Nat → ExecState β
  | [], st, sched => drain f items st sched
  | i :: rest, st, sched =>
      let st1 : ExecState β :=
        { results := st.results
          inflight := st.inflight ++ [i]
          maxInflight := max st.maxInflight (st.inflight.length + 1) }
      if limit ≤ st1.inflight.length then
        runAux f items limit rest
          (completeOne f items st1 (sched.headD 0)) sched.tail
      else
        runAux f items limit rest st1 sched

/-- Run of `parallelLimit items fn limit` under scheduler `sched`: results start as
`new Array(items.length)` (all slots empty), no operation in flight. -/
def parallelLimitRun (f : α → β) (items : List α) (limit : Nat)
    (sched : List Nat) : ExecState β :=
  runAux f items limit (List.range items.length)
    { results := List.replicate items.length none
      inflight := []
      maxInflight := 0 } sched

/-- The list returned by `parallelLimit`: the filled result slots. -/
def parallelLimitOut (f : α → β) (items : List α) (limit : Nat)
    (sched : List Nat) : List β :=
  (parallelLimitRun f items limit sched).results.filterMap id

/-! #### Executor invariants -/

/-- Loop invariant of `runAux`: result slots are correctly sized, every
in-flight index is in range, and every index that is neither pending nor in
flight already holds its final value `f items[j]`. -/
def ExecInv (f : α → β) (items : List α) (idxs : List Nat)
    (st : ExecState β) : Prop :=
  st.results.length = items.length ∧
  (∀ j ∈ st.inflight, j < items.length) ∧
  (∀ j < items.length, j ∉ idxs → j ∉ st.inflight →
    st.results[j]? = (items.map (fun a => some (f a)))[j]?)

/-! ### Article cache (src/index.ts, class `ArticleCache`)

Durable storage is a map from cache file path to the outcome of reading
and `JSON.parse`-ing that file: `none` means the file is missing or
unreadable, `some none` means it exists but is corrupt, `some (some e)`
means it parses to entry `e`.  The MD5 URL hash is an uninterpreted
function parameter `h`; timestamps are integer epoch milliseconds. -/

structure CacheEntry where
  text : String
  timestamp : Int
deriving DecidableEq, Repr

abbrev CacheStore := String → Option (Option CacheEntry)

/-- Embeds `getCachePath`: `path.join(cacheDir, hash(url) + ".json")`, with the
directory prefix left implicit in the store's key space. -/
def getCachePath (h : String → String) (url : String) : String :=
  h url ++ ".json"

/-- The serving freshness window used by `ArticleCache.get`:
`6 * 60 * 60 * 1000` milliseconds. -/
def freshnessMs : Int := 6 * 60 * 60 * 1000

/-- The retention window used by `ArticleCache.cleanup`:
`24 * 60 * 60 * 1000` milliseconds. -/
def retentionMs : Int := 24 * 60 * 60 * 1000

/-- Embeds `ArticleCache.get`: read and parse the cache file for `hash(url)`;
return the entry only when `now - timestamp < freshnessMs`; any read or
parse failure is swallowed and yields `none`. -/
def cacheGet (h : String → String) (now : Int) (store : CacheStore)
    (url : String) : Option CacheEntry :=
  match store (getCachePath h url) with
  | none => none
  | some none => none
  | some (some e) => if now - e.timestamp < freshnessMs then some e else none

/-- Embeds `ArticleCache.set`: write `{text, timestamp: now}` under `hash(url)`. -/
def cacheSet (h : String → String) (now : Int) (store : CacheStore)
    (url : String) (text : String) : CacheStore :=
  fun p =>
    if p = getCachePath h url then some (some { text := text, timestamp := now })
    else store p

/-- Embeds `ArticleCache.cleanup`: for every stored file, parse it and unlink it
when `now - timestamp > retentionMs`; files that fail to parse are skipped
by the per-file `catch`. -/
def cacheCleanup (now : Int) (store : CacheStore) : CacheStore :=
  fun p =>
    match store p with
    | some (some e) =>
        if now - e.timestamp > retentionMs then none else some (some e)
    | other => other

/-- A fixed one-entry store used to instantiate the cache theorems. -/
def staleStore : CacheStore := fun _ => some (some (CacheEntry.mk "t" 0))

/-- A fixed store holding one entry 24h + 1ms old at time `0`. -/
def expiredStore : CacheStore :=
  fun p =>
    if p = "old.json" then some (some (CacheEntry.mk "t" (-86400001))) else none

/-! ### Feed fetcher (src/unnamed/part_000, `fetchFeedItems` / `fetchAllFeeds`)

The RSS parsing capability (`new RSSParser().parseURL(url)`) is an
external collaborator, passed in as `parseURL`; `.error` covers every way
it can reject (network error, malformed feed). -/

structure FeedItem where
  title : Option String
  link : Option String
  pubDate : Option String
  content : Option String
deriving DecidableEq, Repr

structure FeedResult where
  url : String
  items : List FeedItem
deriving DecidableEq, Repr

/-- Embeds `fetchFeedItems`: parse the feed and keep the first `limit` items;
any parse failure is rethrown as `Invalid RSS source: <url>`. -/
def fetchFeedItems (parseURL : String → Except Unit (List FeedItem))
    (url : String) (limit : Nat := 5) : Except String (List FeedItem) :=
  match parseURL url with
  | .ok feedItems => .ok (feedItems.take limit)
  | .error _ => .error ("Invalid RSS source: " ++ url)

/-- The per-feed closure of `fetchAllFeeds`: a failing feed is caught,
logged and replaced by `{url, items: []}`. -/
def fetchFeed (parseURL : String → Except Unit (List FeedItem))
    (limit : Nat) (url : String) : FeedResult :=
  match fetchFeedItems parseURL url limit with
  | .ok its => { url := url, items := its }
  | .error _ => { url := url, items := [] }

/-- Embeds `fetchAllFeeds`: one `fetchFeed` per URL through `parallelLimit`
with cap 10. -/
def fetchAllFeeds (parseURL : String → Except Unit (List FeedItem))
    (urls : List String) (sched : List Nat) (limit : Nat := 5) :
    List FeedResult :=
  parallelLimitOut (fetchFeed parseURL limit) urls 10 sched

/-! ### Article scraper (src/config.ts, `fetchArticleText`)

The fetch + cheerio capability is abstracted as an `HtmlDoc` carrying the
text of the three queried regions: `$("article").text()`,
`$("main").text()` and `$("body").text()`; a non-ok or timed-out response
is the `.error` case of the `response` parameter. -/

structure HtmlDoc where
  articleTag : String
  mainTag : String
  bodyTag : String

/-- JS `String.prototype.trim`: strip whitespace from both ends. -/
def jsTrim (s : String) : String :=
  String.mk
    ((((s.data.dropWhile Char.isWhitespace).reverse.dropWhile
      Char.isWhitespace).reverse))

/-- The extraction chain
`$("article").text().trim() || $("main").text().trim() || $("body").text().trim()`
(JS `||` takes the first non-empty string). -/
def extractText (doc : HtmlDoc) : String :=
  if jsTrim doc.articleTag ≠ "" then jsTrim doc.articleTag
  else if jsTrim doc.mainTag ≠ "" then jsTrim doc.mainTag
  else jsTrim doc.bodyTag

/-- One pass of `text.replace(/\s+/g, " ")`: each maximal run of
whitespace becomes a single space.  The `Bool` argument records whether
the previous character was whitespace. -/
def collapseWsAux : Bool → List Char → List Char
  | _, [] => []
  | prevWs, c :: rest =>
    if c.isWhitespace then
      if prevWs then collapseWsAux true rest
      else ' ' :: collapseWsAux true rest
    else c :: collapseWsAux false rest

/-- Embeds `text.replace(/\s+/g, " ").trim().slice(0, 8000)`. -/
def cleanArticleText (s : String) : String :=
  String.mk ((jsTrim (String.mk (collapseWsAux false s.data))).data.take 8000)

/-- Embeds `fetchArticleText`: serve from the cache when `get` returns an entry
(the entry object is truthy in JS whatever its text); otherwise require an
ok response, extract, clean, cache and return.  The returned pair is the
text together with the cache store after the call. -/
def fetchArticleText (h : String → String) (now : Int) (store : CacheStore)
    (url : String) (response : Except Unit HtmlDoc) :
    Except String (String × CacheStore) :=
  match cacheGet h now store url with
  | some cached => .ok (cached.text, store)
  | none =>
    match response with
    | .error _ => .error ("Failed to fetch article: " ++ url)
    | .ok doc =>
        .ok (cleanArticleText (extractText doc),
          cacheSet h now store url (cleanArticleText (extractText doc)))

/-- A document whose article region is blank, main region is whitespace,
and body carries text with irregular whitespace. -/
def sampleDoc : HtmlDoc := HtmlDoc.mk "" "  " "  Hello   world  "

/-- The always-empty cache store. -/
def emptyStore : CacheStore := fun _ => none

/-! ### Source grouping (src/unnamed/part_001, `main`, lines 122-156)

`allArticles` pairs index-for-index with `articleTexts` (the executor's
order guarantee); `validArticles` keeps the articles whose scraped text is
non-empty, `validTexts` the non-empty texts, and the grouping loop walks
`validArticles[i]`/`validTexts[i]` pushing into a `Map` keyed by `feedUrl`
(JS `Map` preserves key insertion order, and pushes append). -/

structure ArticleRef where
  url : String
  title : String
  feedUrl : String
deriving DecidableEq, Repr

structure RawArticle where
  title : String
  url : String
  text : String
deriving DecidableEq, Repr

/-- Embeds `allArticles.filter((_, i) => articleTexts[i] && articleTexts[i].text.length > 0)`. -/
def validArticlesOf (arts : List ArticleRef) (texts : List String) :
    List ArticleRef :=
  (arts.enum.filter (fun p =>
    match texts[p.1]? with
    | some t => decide (0 < t.length)
    | none => false)).map Prod.snd

/-- Embeds `articleTexts.filter(t => t && t.text.length > 0)`. -/
def validTextsOf (texts : List String) : List String :=
  texts.filter (fun t => decide (0 < t.length))

/-- Embeds `articlesBySource.get(feedUrl).push(entry)`, creating the key at the
end of the map when absent. -/
def pushGrouped (m : List (String × List RawArticle)) (k : String)
    (a : RawArticle) : List (String × List RawArticle) :=
  match m with
  | [] => [(k, [a])]
  | (k', gs) :: rest =>
      if k' = k then (k', gs ++ [a]) :: rest
      else (k', gs) :: pushGrouped rest k a

/-- The grouping `for` loop: walk the valid articles with their texts
(the zip realises the index pairing; a loop step with a missing or empty
`textData.text` is skipped by the `continue` guard). -/
def groupLoop (validArts : List ArticleRef) (validTexts : List String) :
    List (String × List RawArticle) :=
  (validArts.zip validTexts).foldl
    (fun m p =>
      if p.2 = "" then m
      else pushGrouped m p.1.feedUrl (RawArticle.mk p.1.title p.1.url p.2))
    []

/-- Map `articlesBySource` as built by `main` from the flattened articles and
their scraped texts. -/
def articlesBySource (arts : List ArticleRef) (texts : List String) :
    List (String × List RawArticle) :=
  groupLoop (validArticlesOf arts texts) (validTextsOf texts)

structure SourceData where
  feedUrl : String
  articles : List RawArticle
deriving DecidableEq, Repr

/-- Embeds `Array.from(articlesBySource.entries()).map(([feedUrl, articles]) => ...)`. -/
def sourcesDataOf (arts : List ArticleRef) (texts : List String) :
    List SourceData :=
  (articlesBySource arts texts).map (fun p => SourceData.mk p.1 p.2)

/-! ### Summarization stage (src/ai.ts and src/unnamed/part_001, lines 158-192)

The text-generation service is abstracted as `genSource` (one call per
source group, as in `generateSourceSummaryFromRaw`) and `genGlobal` (the
single `generateGlobalSummary` call); `hostnameOf` stands for
`new URL(feedUrl).hostname`.  `main` wraps the whole stage in a
`try { ... } catch (e) { console.error("Failed to generate summaries: " +
e.message) }` and then falls through to the final completion log, so `main`
resolves normally and the process exit code is `0`; the `main().catch`
handler that calls `process.exit(1)` never fires for this stage. -/

structure ProcessedArticle where
  title : String
  markdown : String
  feedUrl : String
  articleUrl : String
deriving DecidableEq, Repr

structure SourceSummary where
  feedUrl : String
  articles : List ProcessedArticle
  summary : String
deriving DecidableEq, Repr

/-- Embeds `AIProcessor.generateSourceSummariesFromRaw`: one `processSource` per
group through `parallelLimit` (cap 6).  `processSource` does not catch the
service's failure, and a rejected promise rejects the whole
`parallelLimit` call, so the first failing group's error propagates. -/
def generateSourceSummariesFromRaw
    (genSource : SourceData → Except String String) :
    List SourceData → Except String (List SourceSummary)
  | [] => .ok []
  | sd :: rest =>
    match genSource sd with
    | .error e => .error e
    | .ok summary =>
      match generateSourceSummariesFromRaw genSource rest with
      | .error e => .error e
      | .ok sums =>
          .ok ({ feedUrl := sd.feedUrl,
                 articles := sd.articles.map (fun a =>
                   ProcessedArticle.mk a.title "" sd.feedUrl a.url),
                 summary := summary } :: sums)

structure PhaseOutcome where
  files : List (String × String)
  errorLog : Option String
  exitCode : Nat
deriving DecidableEq, Repr

/-- Embeds `hostname.replace(/[^a-zA-Z0-9.-]/g, '_')`. -/
def sanitizeHostname (s : String) : String :=
  String.mk (s.data.map (fun c =>
    if ('a' ≤ c ∧ c ≤ 'z') ∨ ('A' ≤ c ∧ c ≤ 'Z') ∨ ('0' ≤ c ∧ c ≤ '9') ∨
        c = '.' ∨ c = '-' then c
    else '_'))

/-- The summarization stage of `main` (part_001 lines 158-192): generate
per-source summaries, write one `<hostname>_summary.md` per source, then
generate and write `global_summary.md`; any error is caught, logged as
`Failed to generate summaries: <message>`, and `main` continues to its
normal completion, so the exit code is `0` in every branch. -/
def summarizationPhase (genSource : SourceData → Except String String)
    (genGlobal : List SourceSummary → Except String String)
    (hostnameOf : String → String) (reviewDir : String)
    (sourcesData : List SourceData) : PhaseOutcome :=
  match generateSourceSummariesFromRaw genSource sourcesData with
  | .error e =>
      { files := []
        errorLog := some ("Failed to generate summaries: " ++ e)
        exitCode := 0 }
  | .ok sums =>
      match genGlobal sums with
      | .error e =>
          { files := sums.map (fun s =>
              (reviewDir ++ "/" ++ sanitizeHostname (hostnameOf s.feedUrl) ++
                "_summary.md", s.summary))
            errorLog := some ("Failed to generate summaries: " ++ e)
            exitCode := 0 }
      | .ok g =>
          { files := (sums.map (fun s =>
              (reviewDir ++ "/" ++ sanitizeHostname (hostnameOf s.feedUrl) ++
                "_summary.md", s.summary))) ++
              [(reviewDir ++ "/global_summary.md", g)]
            errorLog := none
            exitCode := 0 }

/-! ### Theorems -/

theorem mem_of_mem_eraseIdx {l : List Nat} {i x : Nat}
    (h : x ∈ l.eraseIdx i) : x ∈ l :=
  (List.eraseIdx_sublist l i).mem h

theorem eq_getElem_of_not_mem_eraseIdx {l : List Nat} {pos x : Nat}
    (hpos : pos < l.length) (hx : x ∈ l) (hx' : x ∉ l.eraseIdx pos) :
    x = l[pos] := by
  rw [List.eraseIdx_eq_take_drop_succ] at hx'
  have hdecomp : l = l.take pos ++ l.drop pos := (List.take_append_drop pos l).symm
  have hdrop : l.drop pos = l[pos] :: l.drop (pos + 1) :=
    List.drop_eq_getElem_cons hpos
  rw [hdecomp, hdrop, List.mem_append, List.mem_cons] at hx
  rcases hx with h1 | h2 | h3
  · exact absurd (List.mem_append.mpr (Or.inl h1)) hx'
  · exact h2
  · exact absurd (List.mem_append.mpr (Or.inr h3)) hx'

theorem completeOne_eq_of_ne (f : α → β) (items : List α) (st : ExecState β)
    (c : Nat) (h : st.inflight.length ≠ 0) :
    completeOne f items st c =
      { results :=
          match items[st.inflight.getD (c % st.inflight.length) 0]? with
          | some a =>
              st.results.set (st.inflight.getD (c % st.inflight.length) 0)
                (some (f a))
          | none => st.results
        inflight := st.inflight.eraseIdx (c % st.inflight.length)
        maxInflight := st.maxInflight } := by
  rw [completeOne, if_neg h]

theorem completeOne_inv (f : α → β) (items : List α) (idxs : List Nat)
    (st : ExecState β) (c : Nat) (hinv : ExecInv f items idxs st) :
    ExecInv f items idxs (completeOne f items st c) := by
  obtain ⟨hlen, hrange, hdone⟩ := hinv
  by_cases h : st.inflight.length = 0
  · rw [completeOne, if_pos h]
    exact ⟨hlen, hrange, hdone⟩
  · rw [completeOne_eq_of_ne f items st c h]
    have hpos : c % st.inflight.length < st.inflight.length :=
      Nat.mod_lt _ (Nat.pos_of_ne_zero h)
    have hjget : st.inflight.getD (c % st.inflight.length) 0 =
        st.inflight[c % st.inflight.length] := by
      simp [List.getD_eq_getElem?_getD, List.getElem?_eq_getElem hpos]
    have hjmem : st.inflight.getD (c % st.inflight.length) 0 ∈ st.inflight := by
      rw [hjget]; exact List.getElem_mem hpos
    have hjlt : st.inflight.getD (c % st.inflight.length) 0 < items.length :=
      hrange _ hjmem
    obtain ⟨a, ha⟩ :
        ∃ a, items[st.inflight.getD (c % st.inflight.length) 0]? = some a :=
      ⟨_, List.getElem?_eq_getElem hjlt⟩
    refine ⟨?_, ?_, ?_⟩
    · simp only [ha]
      simpa using hlen
    · intro x hx
      exact hrange x (mem_of_mem_eraseIdx hx)
    · intro x hxlt hxidx hxfl
      simp only [ha] at hxfl ⊢
      by_cases hxj : x = st.inflight.getD (c % st.inflight.length) 0
      · rw [hxj]
        have hjlen : st.inflight.getD (c % st.inflight.length) 0 <
            st.results.length := hlen ▸ hjlt
        rw [List.getElem?_set_self hjlen,
          List.getElem?_map, List.getElem?_eq_getElem hjlt]
        have hxa : items[st.inflight.getD (c % st.inflight.length) 0] = a := by
          have hx' : items[st.inflight.getD (c % st.inflight.length) 0]? =
              some items[st.inflight.getD (c % st.inflight.length) 0] :=
            List.getElem?_eq_getElem hjlt
          rw [hx'] at ha; exact Option.some.inj ha
        rw [hxa]
        rfl
      · rw [List.getElem?_set_ne (fun he => hxj he.symm)]
        refine hdone x hxlt hxidx (fun hxin => ?_)
        refine hxj ?_
        rw [hjget]
        exact eq_getElem_of_not_mem_eraseIdx hpos hxin hxfl

theorem completeOne_length_inflight (f : α → β) (items : List α)
    (st : ExecState β) (c : Nat) (h : st.inflight.length ≠ 0) :
    (completeOne f items st c).inflight.length = st.inflight.length - 1 := by
  rw [completeOne_eq_of_ne f items st c h]
  have hpos : c % st.inflight.length < st.inflight.length :=
    Nat.mod_lt _ (Nat.pos_of_ne_zero h)
  simp only [List.length_eraseIdx, hpos, if_pos]

theorem completeOne_maxInflight (f : α → β) (items : List α)
    (st : ExecState β) (c : Nat) :
    (completeOne f items st c).maxInflight = st.maxInflight := by
  by_cases h : st.inflight.length = 0
  · rw [completeOne, if_pos h]
  · rw [completeOne_eq_of_ne f items st c h]

theorem drainAux_inv (f : α → β) (items : List α) (idxs : List Nat) :
    ∀ (fuel : Nat) (st : ExecState β) (sched : List Nat),
      ExecInv f items idxs st → st.inflight.length = fuel →
      ExecInv f items idxs (drainAux f items fuel st sched) ∧
        (drainAux f items fuel st sched).inflight = [] := by
  intro fuel
  induction fuel with
  | zero =>
      intro st sched hinv hlen
      exact ⟨hinv, List.length_eq_zero.mp hlen⟩
  | succ n ih =>
      intro st sched hinv hlen
      have hne : st.inflight.length ≠ 0 := by omega
      refine ih _ sched.tail (completeOne_inv f items idxs st _ hinv) ?_
      rw [completeOne_length_inflight f items st _ hne, hlen]
      omega

theorem drainAux_maxInflight (f : α → β) (items : List α) :
    ∀ (fuel : Nat) (st : ExecState β) (sched : List Nat),
      (drainAux f items fuel st sched).maxInflight = st.maxInflight := by
  intro fuel
  induction fuel with
  | zero => intro st sched; rfl
  | succ n ih =>
      intro st sched
      rw [drainAux, ih, completeOne_maxInflight]

/-- Core correctness lemma: from any state satisfying the loop invariant
with the pending indices all in range, `runAux` ends with every result
slot holding `f` of its input. -/
theorem runAux_results (f : α → β) (items : List α) (limit : Nat) :
    ∀ (idxs : List Nat) (st : ExecState β) (sched : List Nat),
      ExecInv f items idxs st → (∀ i ∈ idxs, i < items.length) →
      (runAux f items limit idxs st sched).results =
        items.map (fun a => some (f a)) := by
  intro idxs
  induction idxs with
  | nil =>
      intro st sched hinv _
      rw [runAux, drain]
      obtain ⟨hinv', hempty⟩ :=
        drainAux_inv f items [] st.inflight.length st sched hinv rfl
      obtain ⟨hlen, _, hdone⟩ := hinv'
      apply List.ext_getElem?
      intro j
      by_cases hj : j < items.length
      · rw [hdone j hj (List.not_mem_nil j) (hempty ▸ List.not_mem_nil j)]
      · rw [List.getElem?_eq_none, List.getElem?_eq_none]
        · simpa using Nat.le_of_not_lt hj
        · rw [hlen]; exact Nat.le_of_not_lt hj
  | cons i rest ih =>
      intro st sched hinv hidx
      obtain ⟨hlen, hrange, hdone⟩ := hinv
      have hinv1 : ExecInv f items rest
          { results := st.results, inflight := st.inflight ++ [i],
            maxInflight := max st.maxInflight (st.inflight.length + 1) } := by
        refine ⟨hlen, ?_, ?_⟩
        · intro j hj
          rcases List.mem_append.mp hj with hj | hj
          · exact hrange j hj
          · rw [List.mem_singleton.mp hj]; exact hidx i (List.mem_cons_self i rest)
        · intro j hjlt hjidx hjfl
          rw [List.mem_append] at hjfl
          push_neg at hjfl
          refine hdone j hjlt ?_ hjfl.1
          intro hj
          rcases List.mem_cons.mp hj with hj | hj
          · exact hjfl.2 (by simp [hj])
          · exact hjidx hj
      have hidx' : ∀ x ∈ rest, x < items.length :=
        fun x hx => hidx x (List.mem_cons_of_mem i hx)
      rw [runAux]
      by_cases hb : limit ≤ st.inflight.length + 1
      · simp only [List.length_append, List.length_singleton, hb, if_pos]
        exact ih _ sched.tail (completeOne_inv f items rest _ _ hinv1) hidx'
      · simp only [List.length_append, List.length_singleton, hb, if_neg,
          not_false_iff]
        exact ih _ sched hinv1 hidx'

/-- The result slots of any complete run of `parallelLimit` hold exactly
`f` applied slotwise to the inputs, whatever the completion schedule. -/
theorem parallelLimitRun_results (f : α → β) (items : List α) (limit : Nat)
    (sched : List Nat) :
    (parallelLimitRun f items limit sched).results =
      items.map (fun a => some (f a)) := by
  apply runAux_results
  · refine ⟨by simp, by simp, ?_⟩
    intro j hj hjr _
    exact absurd (List.mem_range.mpr hj) hjr
  · intro i hi
    exact List.mem_range.mp hi

theorem parallelLimitOut_eq_map (f : α → β) (items : List α) (limit : Nat)
    (sched : List Nat) :
    parallelLimitOut f items limit sched = items.map f := by
  rw [parallelLimitOut, parallelLimitRun_results]
  induction items with
  | nil => rfl
  | cons a l ih => simp [List.filterMap_cons, ih]

/-- Bound on the in-flight count: from a state with fewer than `limit`
operations in flight and recorded maximum at most `limit`, the recorded
maximum never exceeds `limit`. -/
theorem runAux_maxInflight_le (f : α → β) (items : List α) (limit : Nat) :
    ∀ (idxs : List Nat) (st : ExecState β) (sched : List Nat),
      st.inflight.length < limit → st.maxInflight ≤ limit →
      (runAux f items limit idxs st sched).maxInflight ≤ limit := by
  intro idxs
  induction idxs with
  | nil =>
      intro st sched _ hmax
      rw [runAux, drain, drainAux_maxInflight]
      exact hmax
  | cons i rest ih =>
      intro st sched hfl hmax
      rw [runAux]
      set st1 : ExecState β :=
        { results := st.results, inflight := st.inflight ++ [i],
          maxInflight := max st.maxInflight (st.inflight.length + 1) } with hst1
      have hlen1 : st1.inflight.length = st.inflight.length + 1 := by
        simp [hst1]
      have hmax1 : st1.maxInflight ≤ limit := by
        simp only [hst1, max_le_iff]
        exact ⟨hmax, hfl⟩
      by_cases hb : limit ≤ st1.inflight.length
      · simp only [hb, if_pos]
        apply ih
        · rw [completeOne_length_inflight f items st1 _ (by omega), hlen1]
          omega
        · rw [completeOne_maxInflight]
          exact hmax1
      · simp only [hb, if_neg, not_false_iff]
        exact ih _ _ (Nat.lt_of_not_le hb) hmax1

theorem parallelLimitRun_maxInflight_le (f : α → β) (items : List α)
    (limit : Nat) (sched : List Nat) (hL : 1 ≤ limit) :
    (parallelLimitRun f items limit sched).maxInflight ≤ limit := by
  apply runAux_maxInflight_le
  · simpa using hL
  · exact Nat.zero_le _

/-! ### Claim theorems for the executor and the cache -/

/-- C1: for every input list, transform and concurrency limit `L ≥ 1`,
`parallelLimit` (under any completion schedule) returns a list of the same
length as the input whose `i`-th element is the transform applied to
`input[i]`; the empty input yields the empty output. -/
theorem parallelLimit_output_correct (f : α → β) (items : List α)
    (limit : Nat) (sched : List Nat) (_hL : 1 ≤ limit) :
    parallelLimitOut f items limit sched = items.map f ∧
    (parallelLimitOut f items limit sched).length = items.length ∧
    (∀ (i : Nat) (a : α), items[i]? = some a →
      (parallelLimitOut f items limit sched)[i]? = some (f a)) ∧
    (items = [] → parallelLimitOut f items limit sched = []) := by
  have hmap := parallelLimitOut_eq_map f items limit sched
  refine ⟨hmap, by rw [hmap]; simp, ?_, ?_⟩
  · intro i a ha
    rw [hmap, List.getElem?_map, ha]
    rfl
  · intro he
    rw [hmap, he]
    rfl

theorem parallelLimit_output_correct_witness :
    1 ≤ 2 ∧
      parallelLimitOut (fun n => n + 1) [10, 20, 30] 2 [1, 0, 0] =
        [11, 21, 31] := by
  refine ⟨by decide, ?_⟩
  rw [(parallelLimit_output_correct (fun n => n + 1) [10, 20, 30] 2 [1, 0, 0]
    (by decide)).1]
  rfl

/-- C2: for every input list and limit `L ≥ 1`, no state of an execution of
`parallelLimit` ever has more than `L` transforms in flight
(`maxInflight` records the largest in-flight count reached, and a queued
input is started only after a `completeOne` settlement whenever `L` are
already running, by the `limit ≤ …` branch of `runAux`). -/
theorem parallelLimit_inflight_bounded (f : α → β) (items : List α)
    (limit : Nat) (sched : List Nat) (hL : 1 ≤ limit) :
    (parallelLimitRun f items limit sched).maxInflight ≤ limit :=
  parallelLimitRun_maxInflight_le f items limit sched hL

theorem parallelLimit_inflight_bounded_witness :
    1 ≤ 2 ∧
      (parallelLimitRun (fun n => n + 1) [10, 20, 30, 40] 2
        [0, 1, 0]).maxInflight ≤ 2 :=
  ⟨by decide,
    parallelLimit_inflight_bounded (fun n => n + 1) [10, 20, 30, 40] 2
      [0, 1, 0] (by decide)⟩

/-- C4: `ArticleCache.get` returns a stored entry exactly when it exists,
parses, and satisfies `now - timestamp < 6h`; a stale entry (for example
`timestamp = now - 7h`) still present in storage is not returned, and
missing or corrupt entries yield `none` rather than an error. -/
theorem articleCache_get_fresh_only (h : String → String) (now : Int)
    (store : CacheStore) (url : String) :
    (∀ e : CacheEntry,
      cacheGet h now store url = some e ↔
        store (getCachePath h url) = some (some e) ∧
          now - e.timestamp < freshnessMs) ∧
    (∀ e : CacheEntry, store (getCachePath h url) = some (some e) →
      e.timestamp = now - 7 * 60 * 60 * 1000 →
      cacheGet h now store url = none) ∧
    (store (getCachePath h url) = none → cacheGet h now store url = none) ∧
    (store (getCachePath h url) = some none →
      cacheGet h now store url = none) := by
  refine ⟨?_, ?_, ?_, ?_⟩
  · intro e
    constructor
    · intro hget
      rcases hst : store (getCachePath h url) with _ | e'
      · simp [cacheGet, hst] at hget
      · rcases e' with _ | e'
        · simp [cacheGet, hst] at hget
        · simp only [cacheGet, hst] at hget
          by_cases hf : now - e'.timestamp < freshnessMs
          · rw [if_pos hf] at hget
            have he : e' = e := Option.some.inj hget
            subst he
            exact ⟨rfl, hf⟩
          · rw [if_neg hf] at hget
            exact absurd hget (by simp)
    · intro hc
      simp [cacheGet, hc.1, hc.2]
  · intro e hst hts
    have hstale : ¬ now - e.timestamp < freshnessMs := by
      rw [hts, freshnessMs]; omega
    simp [cacheGet, hst, hstale]
  · intro hst
    simp [cacheGet, hst]
  · intro hst
    simp [cacheGet, hst]

theorem articleCache_get_fresh_only_witness :
    staleStore (getCachePath (fun s => s) "u") =
      some (some (CacheEntry.mk "t" 0)) ∧
    (CacheEntry.mk "t" 0).timestamp = 25200000 - 7 * 60 * 60 * 1000 ∧
    cacheGet (fun s => s) 25200000 staleStore "u" = none := by
  refine ⟨rfl, by decide, ?_⟩
  exact (articleCache_get_fresh_only (fun s => s) 25200000 staleStore "u").2.1
    (CacheEntry.mk "t" 0) rfl (by decide)

/-- C7: `set(url, text)` immediately followed by `get(url)` returns an
entry holding exactly the stored text with `timestamp = now`, and that
timestamp satisfies `now - timestamp < 6h`. -/
theorem articleCache_set_get_roundtrip (h : String → String) (now : Int)
    (store : CacheStore) (url text : String) :
    cacheGet h now (cacheSet h now store url text) url =
      some { text := text, timestamp := now } ∧
    now - now < freshnessMs := by
  have hf : now - now < freshnessMs := by rw [freshnessMs]; omega
  exact ⟨by simp [cacheGet, cacheSet, freshnessMs], hf⟩

/-- C8: `cleanup` deletes exactly the parseable stored entries with
`now - timestamp > 24h` and leaves every other key (fresh-enough entries,
corrupt files, missing files) unchanged; running it twice in succession
equals running it once. -/
theorem articleCache_cleanup_exact_and_idempotent (now : Int)
    (store : CacheStore) :
    cacheCleanup now (cacheCleanup now store) = cacheCleanup now store ∧
    (∀ (p : String) (e : CacheEntry), store p = some (some e) →
      now - e.timestamp > retentionMs → cacheCleanup now store p = none) ∧
    (∀ (p : String) (e : CacheEntry), store p = some (some e) →
      ¬ now - e.timestamp > retentionMs → cacheCleanup now store p = store p) ∧
    (∀ p : String, store p = some none → cacheCleanup now store p = store p) ∧
    (∀ p : String, store p = none → cacheCleanup now store p = none) := by
  refine ⟨?_, ?_, ?_, ?_, ?_⟩
  · funext p
    rcases hst : store p with _ | e
    · simp [cacheCleanup, hst]
    · rcases e with _ | e
      · simp [cacheCleanup, hst]
      · by_cases hold : now - e.timestamp > retentionMs
        · simp [cacheCleanup, hst, hold]
        · simp [cacheCleanup, hst, hold]
  · intro p e hst hold
    simp [cacheCleanup, hst, hold]
  · intro p e hst hold
    simp [cacheCleanup, hst, hold]
  · intro p hst
    simp [cacheCleanup, hst]
  · intro p hst
    simp [cacheCleanup, hst]

theorem articleCache_cleanup_witness :
    expiredStore "old.json" = some (some (CacheEntry.mk "t" (-86400001))) ∧
    cacheCleanup 0 expiredStore "old.json" = none := by
  refine ⟨by decide, ?_⟩
  exact (articleCache_cleanup_exact_and_idempotent 0 expiredStore).2.1
    "old.json" (CacheEntry.mk "t" (-86400001)) (by decide) (by decide)

/-- C5: `fetchAllFeeds` returns exactly one entry per input URL, in input
order, under every completion schedule; a feed whose parse fails
contributes `{url, items: []}` while a succeeding feed contributes its
(limit-truncated) items, so the batch always completes. -/
theorem fetchAllFeeds_isolates_failures
    (parseURL : String → Except Unit (List FeedItem)) (urls : List String)
    (sched : List Nat) :
    (fetchAllFeeds parseURL urls sched).length = urls.length ∧
    (∀ (i : Nat) (u : String), urls[i]? = some u →
      (fetchAllFeeds parseURL urls sched)[i]? =
        some { url := u,
               items := match parseURL u with
                        | .ok its => its.take 5
                        | .error _ => [] }) := by
  have hmap := parallelLimitOut_eq_map (fetchFeed parseURL 5) urls 10 sched
  rw [fetchAllFeeds, hmap]
  refine ⟨by simp, ?_⟩
  intro i u hu
  rw [List.getElem?_map, hu]
  show some (fetchFeed parseURL 5 u) = _
  rw [fetchFeed, fetchFeedItems]
  rcases parseURL u with _ | its <;> rfl

theorem fetchAllFeeds_isolates_failures_witness :
    ([ "http://a", "http://b" ] : List String)[0]? = some "http://a" ∧
    (fetchAllFeeds
        (fun u => if u = "http://b" then
            .ok [FeedItem.mk (some "T") (some "L") none none]
          else .error ())
        ["http://a", "http://b"] [0])[0]? =
      some { url := "http://a", items := [] } := by
  refine ⟨rfl, ?_⟩
  have h := (fetchAllFeeds_isolates_failures
    (fun u => if u = "http://b" then
        .ok [FeedItem.mk (some "T") (some "L") none none]
      else .error ())
    ["http://a", "http://b"] [0]).2 0 "http://a" rfl
  rw [h]
  rfl

theorem length_cleanArticleText (s : String) :
    (cleanArticleText s).length ≤ 8000 := by
  show (String.mk _).length ≤ 8000
  rw [String.length]
  simp [List.length_take]

/-- Shared helper: reading back the key just written by `cacheSet` at the
same instant yields the written entry. -/
theorem cacheGet_set_same (h : String → String) (now now' : Int)
    (store : CacheStore) (url text : String)
    (hfresh : now' - now < freshnessMs) :
    cacheGet h now' (cacheSet h now store url text) url =
      some { text := text, timestamp := now } := by
  simp [cacheGet, cacheSet, hfresh]

/-- Shared helper: on a cache hit, `fetchArticleText` returns the cached
text and leaves the store untouched, whatever the response would be. -/
theorem fetchArticleText_hit (h : String → String) (now : Int)
    (store : CacheStore) (url : String) (e : CacheEntry)
    (response : Except Unit HtmlDoc)
    (hhit : cacheGet h now store url = some e) :
    fetchArticleText h now store url response = .ok (e.text, store) := by
  unfold fetchArticleText
  rw [hhit]

/-- Shared helper: on a cache miss with an ok response, `fetchArticleText`
extracts, cleans, caches and returns. -/
theorem fetchArticleText_miss_ok (h : String → String) (now : Int)
    (store : CacheStore) (url : String) (doc : HtmlDoc)
    (hmiss : cacheGet h now store url = none) :
    fetchArticleText h now store url (.ok doc) =
      .ok (cleanArticleText (extractText doc),
        cacheSet h now store url (cleanArticleText (extractText doc))) := by
  unfold fetchArticleText
  rw [hmiss]

/-- C6: on a cache miss with an ok response, `fetchArticleText` extracts
the first non-empty region among article, main, body (empty text, still
`.ok`, when all three are blank), collapses whitespace, trims, truncates
to 8000 characters, caches the result and returns it. -/
theorem fetchArticleText_extraction (h : String → String) (now : Int)
    (store : CacheStore) (url : String) (doc : HtmlDoc)
    (hmiss : cacheGet h now store url = none) :
    fetchArticleText h now store url (.ok doc) =
      .ok (cleanArticleText (extractText doc),
        cacheSet h now store url (cleanArticleText (extractText doc))) ∧
    (jsTrim doc.articleTag ≠ "" → extractText doc = jsTrim doc.articleTag) ∧
    (jsTrim doc.articleTag = "" → jsTrim doc.mainTag ≠ "" →
      extractText doc = jsTrim doc.mainTag) ∧
    (jsTrim doc.articleTag = "" → jsTrim doc.mainTag = "" →
      extractText doc = jsTrim doc.bodyTag) ∧
    (jsTrim doc.articleTag = "" → jsTrim doc.mainTag = "" →
      jsTrim doc.bodyTag = "" →
      fetchArticleText h now store url (.ok doc) =
        .ok ("", cacheSet h now store url "")) ∧
    (cleanArticleText (extractText doc)).length ≤ 8000 ∧
    cacheGet h now
        (cacheSet h now store url (cleanArticleText (extractText doc))) url =
      some { text := cleanArticleText (extractText doc), timestamp := now } := by
  have hrun := fetchArticleText_miss_ok h now store url doc hmiss
  have hext3 : jsTrim doc.articleTag = "" → jsTrim doc.mainTag = "" →
      extractText doc = jsTrim doc.bodyTag := by
    intro h1 h2
    rw [extractText, if_neg (by simp [h1]), if_neg (by simp [h2])]
  refine ⟨hrun, ?_, ?_, hext3, ?_, length_cleanArticleText _, ?_⟩
  · intro h1
    rw [extractText, if_pos h1]
  · intro h1 h2
    rw [extractText, if_neg (by simp [h1]), if_pos h2]
  · intro h1 h2 h3
    have hempty : cleanArticleText (extractText doc) = "" := by
      rw [hext3 h1 h2, h3]
      rfl
    rw [hrun, hempty]
  · exact cacheGet_set_same h now now store url _ (by rw [freshnessMs]; omega)

theorem fetchArticleText_extraction_witness :
    cacheGet (fun s => s) 0 emptyStore "u" = none ∧
    cleanArticleText (extractText sampleDoc) = "Hello world" ∧
    fetchArticleText (fun s => s) 0 emptyStore "u" (.ok sampleDoc) =
      .ok (cleanArticleText (extractText sampleDoc),
        cacheSet (fun s => s) 0 emptyStore "u"
          (cleanArticleText (extractText sampleDoc))) := by
  refine ⟨rfl, by decide, ?_⟩
  exact (fetchArticleText_extraction (fun s => s) 0 emptyStore "u" sampleDoc
    rfl).1

/-- C10: an empty extraction result is cached like any other: after a
cache-miss call whose cleaned extraction is empty, the empty string is
stored under `hash(url)`, and any later call within the freshness window
returns `.ok ""` from the cache whatever the network would do (the
`response` argument is irrelevant, including an outright fetch failure). -/
theorem emptyText_cached_and_hit (h : String → String) (now now' : Int)
    (store : CacheStore) (url : String) (doc : HtmlDoc)
    (hmiss : cacheGet h now store url = none)
    (hempty : cleanArticleText (extractText doc) = "")
    (hfresh : now' - now < freshnessMs) :
    fetchArticleText h now store url (.ok doc) =
      .ok ("", cacheSet h now store url "") ∧
    cacheSet h now store url "" (getCachePath h url) =
      some (some { text := "", timestamp := now }) ∧
    (∀ response : Except Unit HtmlDoc,
      fetchArticleText h now' (cacheSet h now store url "") url response =
        .ok ("", cacheSet h now store url "")) := by
  refine ⟨?_, ?_, ?_⟩
  · rw [fetchArticleText_miss_ok h now store url doc hmiss, hempty]
  · show (if getCachePath h url = getCachePath h url then _ else _) = _
    rw [if_pos rfl]
  · intro response
    have hback := cacheGet_set_same h now now' store url "" hfresh
    exact fetchArticleText_hit h now' (cacheSet h now store url "") url
      { text := "", timestamp := now } response hback

theorem ne_empty_of_length_pos {s : String} (h : 0 < s.length) : s ≠ "" := by
  intro he
  subst he
  exact absurd h (by decide)

/-- C9: articles from feeds `[X, X, Y]` are partitioned into exactly two
groups: the two `X` articles in discovery order, then the one `Y` article,
each paired with its own scraped text; an article with empty text is
excluded from the grouping. -/
theorem grouping_partitions_by_feed (X Y u1 u2 u3 ti1 ti2 ti3 : String)
    (t1 t2 t3 : String) (hXY : X ≠ Y) (h1 : 0 < t1.length)
    (h3 : 0 < t3.length) :
    (0 < t2.length →
      articlesBySource
          [ArticleRef.mk u1 ti1 X, ArticleRef.mk u2 ti2 X,
            ArticleRef.mk u3 ti3 Y] [t1, t2, t3] =
        [(X, [RawArticle.mk ti1 u1 t1, RawArticle.mk ti2 u2 t2]),
          (Y, [RawArticle.mk ti3 u3 t3])]) ∧
    (t2 = "" →
      articlesBySource
          [ArticleRef.mk u1 ti1 X, ArticleRef.mk u2 ti2 X,
            ArticleRef.mk u3 ti3 Y] [t1, t2, t3] =
        [(X, [RawArticle.mk ti1 u1 t1]), (Y, [RawArticle.mk ti3 u3 t3])]) := by
  have e1 : t1 ≠ "" := ne_empty_of_length_pos h1
  have e3 : t3 ≠ "" := ne_empty_of_length_pos h3
  constructor
  · intro h2
    have e2 : t2 ≠ "" := ne_empty_of_length_pos h2
    simp [articlesBySource, validArticlesOf, validTextsOf, groupLoop,
      pushGrouped, List.enum, h1, h2, h3, e1, e2, e3, hXY]
  · intro h2
    subst h2
    simp [articlesBySource, validArticlesOf, validTextsOf, groupLoop,
      pushGrouped, List.enum, h1, h3, e1, e3, hXY]

theorem grouping_partitions_by_feed_witness :
    ("fX" : String) ≠ "fY" ∧ 0 < ("a1" : String).length ∧
    articlesBySource
        [ArticleRef.mk "x1" "T1" "fX", ArticleRef.mk "x2" "T2" "fX",
          ArticleRef.mk "y1" "T3" "fY"] ["a1", "a2", "a3"] =
      [("fX", [RawArticle.mk "T1" "x1" "a1", RawArticle.mk "T2" "x2" "a2"]),
        ("fY", [RawArticle.mk "T3" "y1" "a3"])] := by
  refine ⟨by decide, by decide, ?_⟩
  exact (grouping_partitions_by_feed "fX" "fY" "x1" "x2" "y1" "T1" "T2" "T3"
    "a1" "a2" "a3" (by decide) (by decide) (by decide)).1 (by decide)

theorem emptyText_cached_and_hit_witness :
    cacheGet (fun s => s) 0 emptyStore "u" = none ∧
    cleanArticleText (extractText (HtmlDoc.mk " " "" "")) = "" ∧
    ((5 : Int) - 0 < freshnessMs) ∧
    fetchArticleText (fun s => s) 5 (cacheSet (fun s => s) 0 emptyStore "u" "")
        "u" (.error ()) =
      .ok ("", cacheSet (fun s => s) 0 emptyStore "u" "") := by
  refine ⟨rfl, by decide, by decide, ?_⟩
  exact (emptyText_cached_and_hit (fun s => s) 0 5 emptyStore "u"
    (HtmlDoc.mk " " "" "") rfl (by decide) (by decide)).2.2 (.error ())

/-- C3 counterexample: with a generation service that fails on the (sole)
source group, the summarization stage writes no files and logs the cause,
but `main` completes normally: the outcome is exit code `0`, refuting the
claim that the run terminates with a non-zero outcome. -/
theorem summarization_failure_exits_zero :
    summarizationPhase (fun _ => .error "boom") (fun _ => .ok "g")
        (fun _ => "x") "d"
        [SourceData.mk "http://x/feed" [RawArticle.mk "T" "http://x/a" "b"]] =
      { files := []
        errorLog := some "Failed to generate summaries: boom"
        exitCode := 0 } := by
  rfl

/-- C3 (amended): a generation failure is not swallowed inside
`generateSourceSummariesFromRaw` — any failing group makes the whole stage
fail — and `main` catches it, logs `Failed to generate summaries: <cause>`
and writes no summary files for a per-source failure (for a global-summary
failure the per-source files are already written and only the global file
is missing); the run then completes with exit code `0`. -/
theorem summarization_failure_logged_not_fatal :
    (∀ (genSource : SourceData → Except String String)
      (sources : List SourceData) (sd : SourceData) (e : String),
      sd ∈ sources → genSource sd = .error e →
      (generateSourceSummariesFromRaw genSource sources).isOk = false) ∧
    (∀ (genSource : SourceData → Except String String)
      (genGlobal : List SourceSummary → Except String String)
      (hostnameOf : String → String) (dir : String)
      (sources : List SourceData) (e : String),
      generateSourceSummariesFromRaw genSource sources = .error e →
      summarizationPhase genSource genGlobal hostnameOf dir sources =
        { files := []
          errorLog := some ("Failed to generate summaries: " ++ e)
          exitCode := 0 }) ∧
    (∀ (genSource : SourceData → Except String String)
      (genGlobal : List SourceSummary → Except String String)
      (hostnameOf : String → String) (dir : String)
      (sources : List SourceData) (sums : List SourceSummary) (e : String),
      generateSourceSummariesFromRaw genSource sources = .ok sums →
      genGlobal sums = .error e →
      summarizationPhase genSource genGlobal hostnameOf dir sources =
        { files := sums.map (fun s =>
            (dir ++ "/" ++ sanitizeHostname (hostnameOf s.feedUrl) ++
              "_summary.md", s.summary))
          errorLog := some ("Failed to generate summaries: " ++ e)
          exitCode := 0 }) := by
  refine ⟨?_, ?_, ?_⟩
  · intro genSource sources
    induction sources with
    | nil => intro sd e hmem; exact absurd hmem (List.not_mem_nil sd)
    | cons a rest ih =>
        intro sd e hmem herr
        rcases List.mem_cons.mp hmem with heq | hmem'
        · subst heq
          show (match genSource sd with
            | .error e => Except.error e
            | .ok summary => _).isOk = false
          rw [herr]
          rfl
        · show (match genSource a with
            | .error e => Except.error e
            | .ok summary => _).isOk = false
          rcases hga : genSource a with _ | s
          · rfl
          · have hrest := ih sd e hmem' herr
            rcases hr : generateSourceSummariesFromRaw genSource rest
              with e' | sums
            · rfl
            · rw [hr] at hrest
              exact absurd hrest (by simp [Except.isOk, Except.toBool])
  · intro genSource genGlobal hostnameOf dir sources e herr
    simp only [summarizationPhase, herr]
  · intro genSource genGlobal hostnameOf dir sources sums e hok herr
    simp only [summarizationPhase, hok, herr]

theorem summarization_failure_logged_not_fatal_witness :
    (SourceData.mk "http://x/feed" [] ∈ [SourceData.mk "http://x/feed" []]) ∧
    ((fun _ : SourceData => (Except.error "boom" : Except String String))
        (SourceData.mk "http://x/feed" []) = .error "boom") ∧
    (generateSourceSummariesFromRaw (fun _ => .error "boom")
        [SourceData.mk "http://x/feed" []]).isOk = false := by
  refine ⟨List.mem_cons_self _ _, rfl, ?_⟩
  exact summarization_failure_logged_not_fatal.1 (fun _ => .error "boom")
    [SourceData.mk "http://x/feed" []] (SourceData.mk "http://x/feed" [])
    "boom" (List.mem_cons_self _ _) rfl

end Glint
